import Mathlib

/-!
A shallow embedding of the radix trie from `src/lib.rs` (crate `radix-trie`).

Modelling conventions:
* A Rust `u8` byte is `Fin 256` (named `Byte` below).
* The fixed-size boxed array `[RadixNode<T>; 256]` (the `Level<T>` alias in
  the source) is a total function `Byte → RadixNode T`: the type itself
  guarantees exactly 256 slots, one per byte value, matching the source's
  `BRANCH_FACTOR`-sized array.  In-place mutation of one slot
  (`children[byte].insert(...)`) becomes `Function.update`.
* `Option` models Rust's `Option`; a `&mut self` method returning `R`
  becomes a pure function returning the updated value paired with `R`.
* The key iterator `&mut dyn Iterator<Item = u8>` becomes the list of bytes
  it yields, consumed front-first, exactly as `key.next()` consumes it.
-/

/-- Source constant `BRANCH_FACTOR: usize = 256`. -/
def BRANCH_FACTOR : Nat := 256

/-- A single byte value 0–255, the index type of a children array. -/
abbrev Byte : Type := Fin 256

/-- Source type `RadixArray<T> = [T; BRANCH_FACTOR]`: a fixed array with one
slot per byte value, modelled as a total function out of `Byte`. -/
abbrev RadixArray (T : Type) : Type := Byte → T

/-- Source struct `RadixNode<T>`: an optional stored value (`accept_state`)
and a lazily allocated children array (`children: Option<Box<Level<T>>>`).
The `Box` indirection is immaterial in a pure model.  Lean's kernel rejects
the nested occurrence `Option (Byte → RadixNode T)` as a field, so the
`Option` on the `children` field is flattened into two constructors —
`rnode0` is a node whose `children` is `None`, `rnode1 _ cs` one whose
`children` is `Some cs` — and the record view (`mk`, `accept_state`,
`children`) is recovered by the definitions below. -/
inductive RadixNode (T : Type) : Type where
  | rnode0 (accept_state : Option T) : RadixNode T
  | rnode1 (accept_state : Option T) (cs : Byte → RadixNode T) : RadixNode T

/-- Source type `Level<T> = RadixArray<RadixNode<T>>`. -/
abbrev Level (T : Type) : Type := RadixArray (RadixNode T)

namespace RadixNode

/-- Builds a node from its two source fields. -/
def mk {T : Type} (a : Option T) : Option (Level T) → RadixNode T
  | none => .rnode0 a
  | some cs => .rnode1 a cs

/-- Field accessor for `accept_state`. -/
def accept_state {T : Type} : RadixNode T → Option T
  | .rnode0 a => a
  | .rnode1 a _ => a

/-- Field accessor for `children`. -/
def children {T : Type} : RadixNode T → Option (Level T)
  | .rnode0 _ => none
  | .rnode1 _ cs => some cs

/-- Source `RadixNode::new`: a node with no value and no children
(also `RadixNode::default`). -/
def new (T : Type) : RadixNode T := .mk none none

/-- Source `RadixNode::new_children`: allocates a fresh array of
`BRANCH_FACTOR` default nodes (the source pushes 256 `RadixNode::default()`
into a vector and converts it to the array). -/
def new_children (T : Type) : Level T := fun _ => RadixNode.new T

/-- Source `RadixNode::set_value`: takes the previous `accept_state`, stores
the new value, and returns the previous one. -/
def set_value {T : Type} (n : RadixNode T) (value : T) : RadixNode T × Option T :=
  (.mk (some value) n.children, n.accept_state)

/-- The first statement of `RadixNode::handle_next_byte`, extracted as a
named definition: if `self.children` is `None`, initialize it with
`Self::new_children()`; otherwise leave the node as is. -/
def ensure_children {T : Type} (n : RadixNode T) : RadixNode T :=
  if n.children.isNone then .mk n.accept_state (some (new_children T)) else n

mutual

/-- Source `RadixNode::insert`: match on `key.next()` — `None` stores the
value here via `set_value`, `Some(byte)` delegates to `handle_next_byte`. -/
def insert {T : Type} : RadixNode T → List Byte → T → RadixNode T × Option T
  | n, [], value => n.set_value value
  | n, byte :: key, value => n.handle_next_byte byte key value
termination_by _ key _ => 2 * key.length

/-- Source `RadixNode::handle_next_byte`: first materialize `children` if
absent (`ensure_children`), then match on the children array.  The `Some`
arm inserts into the child at index `byte`; the `None` arm is the source's
fallback that builds a fresh array, inserts into it, and stores it
(shown unreachable in the theorem for C9). -/
def handle_next_byte {T : Type} : RadixNode T → Byte → List Byte → T → RadixNode T × Option T
  | n, byte, key, value =>
    let n1 := n.ensure_children
    match n1.children with
    | some cs =>
        let r := (cs byte).insert key value
        (.mk n1.accept_state (some (Function.update cs byte r.1)), r.2)
    | none =>
        let cs := new_children T
        let r := (cs byte).insert key value
        (.mk n1.accept_state (some (Function.update cs byte r.1)), r.2)
termination_by _ _ key _ => 2 * key.length + 1

end

/-- Observation function (not in the source, which has no lookup): the node
reached from `n` by walking the given byte path, `none` when some children
array on the way is absent. -/
def subnodeAt {T : Type} : RadixNode T → List Byte → Option (RadixNode T)
  | n, [] => some n
  | n, byte :: key =>
    match n.children with
    | none => none
    | some cs => (cs byte).subnodeAt key

/-- Observation function: the value stored at the node reached by the given
byte path, `none` when the path or the value is absent. -/
def valueAt {T : Type} (n : RadixNode T) (key : List Byte) : Option T :=
  (n.subnodeAt key).bind accept_state

/-- Step-indexed variant of `insert` for the termination claim: one unit of
fuel is spent per recursive descent (per byte consumed), and the walk gives
up with `none` when the fuel runs out before the key does. -/
def insertFuel {T : Type} : Nat → RadixNode T → List Byte → T → Option (RadixNode T × Option T)
  | _, n, [], value => some (n.set_value value)
  | 0, _, _ :: _, _ => none
  | fuel + 1, n, byte :: key, value =>
    let n1 := n.ensure_children
    match n1.children with
    | some cs =>
      match insertFuel fuel (cs byte) key value with
      | none => none
      | some r => some (.mk n1.accept_state (some (Function.update cs byte r.1)), r.2)
    | none => none

end RadixNode

/-- Source struct `RadixTrie<T>`: a root node and the insertion counter
(field `node_count`). -/
structure RadixTrie (T : Type) : Type where
  root : RadixNode T
  node_count : Nat

namespace RadixTrie

/-- Source `RadixTrie::new`: default root node, counter at 0. -/
def new (T : Type) : RadixTrie T := ⟨RadixNode.new T, 0⟩

/-- Source `RadixTrie::len`: returns the counter. -/
def len {T : Type} (t : RadixTrie T) : Nat := t.node_count

/-- Source `RadixTrie::is_empty`: `self.len() == 0`. -/
def is_empty {T : Type} (t : RadixTrie T) : Bool := t.len == 0

/-- Source `RadixTrie::increment`: `self.node_count += 1`. -/
def increment {T : Type} (t : RadixTrie T) : RadixTrie T :=
  { t with node_count := t.node_count + 1 }

/-- Source `RadixTrie::insert`: converts the key into its byte sequence
(modelled as already being a `List Byte`), delegates to the root node's
insert (discarding the returned previous value), then increments. -/
def insert {T : Type} (t : RadixTrie T) (key : List Byte) (value : T) : RadixTrie T :=
  ({ t with root := (t.root.insert key value).1 } : RadixTrie T).increment

/-- A sequence of `insert` calls, used to state claims about call
sequences; performs the calls front-first. -/
def insertAll {T : Type} (t : RadixTrie T) (ops : List (List Byte × T)) : RadixTrie T :=
  ops.foldl (fun s p => s.insert p.1 p.2) t

end RadixTrie

/-- A concrete node used to instantiate theorems with hypotheses: it stores
the value 3 at the one-byte key `[2]` (children materialized, slot 2 holds
an accepting child). -/
def sampleNode : RadixNode Nat :=
  RadixNode.mk none
    (some (Function.update (RadixNode.new_children Nat) 2 (RadixNode.mk (some 3) none)))

namespace RadixNode

@[simp] theorem accept_state_mk {T : Type} (a : Option T) (c : Option (Level T)) :
    (RadixNode.mk a c).accept_state = a := by cases c <;> rfl

@[simp] theorem children_mk {T : Type} (a : Option T) (c : Option (Level T)) :
    (RadixNode.mk a c).children = c := by cases c <;> rfl

/-- Every node is determined by its two fields. -/
@[simp] theorem mk_fields {T : Type} (n : RadixNode T) :
    RadixNode.mk n.accept_state n.children = n := by cases n <;> rfl

@[simp] theorem subnodeAt_nil {T : Type} (n : RadixNode T) : n.subnodeAt [] = some n := rfl

@[simp] theorem valueAt_nil {T : Type} (n : RadixNode T) :
    n.valueAt [] = n.accept_state := rfl

theorem subnodeAt_cons {T : Type} (n : RadixNode T) (byte : Byte) (key : List Byte) :
    n.subnodeAt (byte :: key) =
      match n.children with
      | none => none
      | some cs => (cs byte).subnodeAt key := rfl

@[simp] theorem subnodeAt_cons_none {T : Type} (n : RadixNode T) (byte : Byte)
    (key : List Byte) (h : n.children = none) : n.subnodeAt (byte :: key) = none := by
  rw [subnodeAt_cons, h]

@[simp] theorem subnodeAt_cons_some {T : Type} (n : RadixNode T) (byte : Byte)
    (key : List Byte) (cs : Level T) (h : n.children = some cs) :
    n.subnodeAt (byte :: key) = (cs byte).subnodeAt key := by
  rw [subnodeAt_cons, h]

@[simp] theorem valueAt_new {T : Type} (key : List Byte) :
    (RadixNode.new T).valueAt key = none := by
  cases key with
  | nil => rfl
  | cons b k => simp [valueAt, subnodeAt_cons_none, RadixNode.new]

theorem valueAt_cons_none {T : Type} (n : RadixNode T) (byte : Byte) (key : List Byte)
    (h : n.children = none) : n.valueAt (byte :: key) = none := by
  simp [valueAt, subnodeAt_cons_none n byte key h]

theorem valueAt_cons_some {T : Type} (n : RadixNode T) (byte : Byte) (key : List Byte)
    (cs : Level T) (h : n.children = some cs) :
    n.valueAt (byte :: key) = (cs byte).valueAt key := by
  simp [valueAt, subnodeAt_cons_some n byte key cs h]

/-- Unfolding lemma: `insert` with an exhausted key is `set_value`. -/
theorem insert_nil {T : Type} (n : RadixNode T) (value : T) :
    n.insert [] value = (.mk (some value) n.children, n.accept_state) := by
  rw [RadixNode.insert]; rfl

/-- Unfolding lemma: `insert` with a byte remaining delegates to
`handle_next_byte`. -/
theorem insert_cons {T : Type} (n : RadixNode T) (byte : Byte) (key : List Byte) (value : T) :
    n.insert (byte :: key) value = n.handle_next_byte byte key value := by
  rw [RadixNode.insert]

/-- Case lemma: with the children array already present, `handle_next_byte`
recurses into slot `byte` and writes the updated child back in place. -/
theorem handle_next_byte_some {T : Type} (n : RadixNode T) (byte : Byte) (key : List Byte)
    (value : T) (cs : Level T) (h : n.children = some cs) :
    n.handle_next_byte byte key value =
      (.mk n.accept_state (some (Function.update cs byte ((cs byte).insert key value).1)),
        ((cs byte).insert key value).2) := by
  rw [RadixNode.handle_next_byte]
  have he : n.ensure_children = n := by
    simp [ensure_children, h]
  rw [he, h]

/-- Case lemma: with the children array absent, `handle_next_byte` first
materializes a fresh default array and then recurses into its slot `byte`
(which holds a default node). -/
theorem handle_next_byte_none {T : Type} (n : RadixNode T) (byte : Byte) (key : List Byte)
    (value : T) (h : n.children = none) :
    n.handle_next_byte byte key value =
      (.mk n.accept_state
          (some (Function.update (new_children T) byte ((RadixNode.new T).insert key value).1)),
        ((RadixNode.new T).insert key value).2) := by
  rw [RadixNode.handle_next_byte]
  have he : n.ensure_children = .mk n.accept_state (some (new_children T)) := by
    simp [ensure_children, h]
  rw [he]
  simp [RadixNode.mk, children, accept_state, new_children]

/-- The value returned by a node-level `insert` is exactly the value the
tree previously stored at that key (absent when the key was absent). -/
theorem snd_insert {T : Type} (key : List Byte) (n : RadixNode T) (value : T) :
    (n.insert key value).2 = n.valueAt key := by
  induction key generalizing n with
  | nil => simp [insert_nil]
  | cons b k ih =>
    rw [insert_cons]
    cases hc : n.children with
    | none =>
      rw [handle_next_byte_none n b k value hc, valueAt_cons_none n b k hc]
      simp [ih]
    | some cs =>
      rw [handle_next_byte_some n b k value cs hc, valueAt_cons_some n b k cs hc]
      simp [ih]

/-- Master lemma: after `insert key value`, the value observed at a path `q`
is the new value when `q` is the inserted key and is untouched otherwise. -/
theorem valueAt_insert {T : Type} (key : List Byte) (n : RadixNode T) (value : T)
    (q : List Byte) :
    ((n.insert key value).1).valueAt q = if q = key then some value else n.valueAt q := by
  induction key generalizing n q with
  | nil =>
    rw [insert_nil]
    cases q with
    | nil => simp
    | cons c qs =>
      cases hc : n.children with
      | none =>
        rw [valueAt_cons_none _ c qs (by simp [hc]), valueAt_cons_none n c qs hc]
        simp
      | some cs =>
        rw [valueAt_cons_some _ c qs cs (by simp [hc]), valueAt_cons_some n c qs cs hc]
        simp
  | cons b k ih =>
    rw [insert_cons]
    cases hc : n.children with
    | some cs =>
      rw [handle_next_byte_some n b k value cs hc]
      cases q with
      | nil => simp [valueAt_cons_some n b k cs hc]
      | cons c qs =>
        rw [valueAt_cons_some _ c qs (Function.update cs b ((cs b).insert k value).1) (by simp)]
        by_cases hcb : c = b
        · subst hcb
          rw [Function.update_same, ih, valueAt_cons_some n c qs cs hc]
          by_cases hqk : qs = k <;> simp [hqk]
        · rw [Function.update_noteq hcb, valueAt_cons_some n c qs cs hc]
          simp [hcb]
    | none =>
      rw [handle_next_byte_none n b k value hc]
      cases q with
      | nil => simp [valueAt_cons_none n b k hc]
      | cons c qs =>
        rw [valueAt_cons_some _ c qs
          (Function.update (new_children T) b ((RadixNode.new T).insert k value).1) (by simp)]
        by_cases hcb : c = b
        · subst hcb
          rw [Function.update_same, ih, valueAt_cons_none n c qs hc]
          by_cases hqk : qs = k <;> simp [hqk]
        · rw [Function.update_noteq hcb]
          simp [new_children, valueAt_cons_none n c qs hc, hcb]

/-- Walking an appended path is walking the two parts in order. -/
theorem subnodeAt_append {T : Type} (p q : List Byte) (n : RadixNode T) :
    n.subnodeAt (p ++ q) = (n.subnodeAt p).bind (fun m => m.subnodeAt q) := by
  induction p generalizing n with
  | nil => simp
  | cons b p ih =>
    cases hc : n.children with
    | none =>
      rw [List.cons_append, subnodeAt_cons_none _ _ _ hc, subnodeAt_cons_none _ _ _ hc]
      rfl
    | some cs =>
      rw [List.cons_append, subnodeAt_cons_some _ _ _ cs hc, subnodeAt_cons_some _ _ _ cs hc, ih]

/-- The value at an appended path is the value the intermediate node sees. -/
theorem valueAt_append {T : Type} (p q : List Byte) (n m : RadixNode T)
    (hm : n.subnodeAt p = some m) : n.valueAt (p ++ q) = m.valueAt q := by
  rw [valueAt, subnodeAt_append, hm, Option.some_bind, valueAt]

/-- When a value is stored somewhere below a path, the node at that path
exists and its children array is materialized. -/
theorem subnode_children_of_valueAt {T : Type} (p : List Byte) (c : Byte) (rest : List Byte)
    (n : RadixNode T) (w : T) (h : n.valueAt (p ++ c :: rest) = some w) :
    ∃ m cs, n.subnodeAt p = some m ∧ m.children = some cs := by
  rcases ho : n.subnodeAt p with _ | m
  · rw [valueAt, subnodeAt_append, ho] at h
    simp at h
  · refine ⟨m, ?_⟩
    rw [valueAt, subnodeAt_append, ho] at h
    rcases hc : m.children with _ | cs
    · rw [Option.some_bind, subnodeAt_cons_none _ _ _ hc] at h
      simp at h
    · exact ⟨cs, rfl, rfl⟩

/-- Inserting a key whose suffix below the path `p` starts with byte `c`
rewrites the node at `p` in place when it and its children already exist:
the stored value there is kept, the children array stays present, and only
slot `c` of it is replaced (by the recursive insert on the old child). -/
theorem subnodeAt_insert_path {T : Type} (p : List Byte) (c : Byte) (rest : List Byte)
    (n : RadixNode T) (value : T) (m : RadixNode T) (cs : Level T)
    (hm : n.subnodeAt p = some m) (hcs : m.children = some cs) :
    ((n.insert (p ++ c :: rest) value).1).subnodeAt p =
      some (.mk m.accept_state
        (some (Function.update cs c ((cs c).insert rest value).1))) := by
  induction p generalizing n with
  | nil =>
    simp only [subnodeAt_nil, Option.some_inj] at hm
    subst hm
    rw [List.nil_append, insert_cons, handle_next_byte_some n c rest value cs hcs]
    simp
  | cons b p ih =>
    rcases hc : n.children with _ | cs0
    · rw [subnodeAt_cons_none _ _ _ hc] at hm
      exact absurd hm (by simp)
    · rw [subnodeAt_cons_some _ _ _ cs0 hc] at hm
      rw [List.cons_append, insert_cons, handle_next_byte_some n b _ value cs0 hc]
      rw [subnodeAt_cons_some _ b p
        (Function.update cs0 b ((cs0 b).insert (p ++ c :: rest) value).1) (by simp)]
      rw [Function.update_same]
      exact ih (cs0 b) hm

/-- After inserting a key, the node at every proper prefix of that key
exists and has a materialized children array. -/
theorem subnodeAt_insert_children_isSome {T : Type} (q : List Byte) (d : Byte)
    (rest : List Byte) (n : RadixNode T) (value : T) :
    ∃ m, ((n.insert (q ++ d :: rest) value).1).subnodeAt q = some m ∧
      m.children.isSome = true := by
  induction q generalizing n with
  | nil =>
    rcases hc : n.children with _ | cs
    · rw [List.nil_append, insert_cons, handle_next_byte_none n d rest value hc]
      exact ⟨_, rfl, by simp⟩
    · rw [List.nil_append, insert_cons, handle_next_byte_some n d rest value cs hc]
      exact ⟨_, rfl, by simp⟩
  | cons b q ih =>
    rcases hc : n.children with _ | cs
    · rw [List.cons_append, insert_cons, handle_next_byte_none n b _ value hc]
      rw [subnodeAt_cons_some _ b q
        (Function.update (new_children T) b ((RadixNode.new T).insert (q ++ d :: rest) value).1)
        (by simp)]
      rw [Function.update_same]
      exact ih (RadixNode.new T)
    · rw [List.cons_append, insert_cons, handle_next_byte_some n b _ value cs hc]
      rw [subnodeAt_cons_some _ b q
        (Function.update cs b ((cs b).insert (q ++ d :: rest) value).1) (by simp)]
      rw [Function.update_same]
      exact ih (cs b)

/-- The node at the inserted key's end, when the full path already existed,
keeps its children array untouched and holds the new value. -/
theorem subnodeAt_insert_self {T : Type} (key : List Byte) (n : RadixNode T) (value : T)
    (m : RadixNode T) (hm : n.subnodeAt key = some m) :
    ((n.insert key value).1).subnodeAt key = some (.mk (some value) m.children) := by
  induction key generalizing n with
  | nil =>
    simp only [subnodeAt_nil, Option.some_inj] at hm
    subst hm
    rw [insert_nil]
    simp
  | cons b k ih =>
    rcases hc : n.children with _ | cs
    · rw [subnodeAt_cons_none _ _ _ hc] at hm
      exact absurd hm (by simp)
    · rw [subnodeAt_cons_some _ _ _ cs hc] at hm
      rw [insert_cons, handle_next_byte_some n b k value cs hc]
      rw [subnodeAt_cons_some _ b k
        (Function.update cs b ((cs b).insert k value).1) (by simp)]
      rw [Function.update_same]
      exact ih (cs b) hm

theorem insertFuel_nil {T : Type} (fuel : Nat) (n : RadixNode T) (value : T) :
    insertFuel fuel n [] value = some (n.set_value value) := by
  cases fuel <;> rfl

theorem insertFuel_zero {T : Type} (n : RadixNode T) (byte : Byte) (key : List Byte)
    (value : T) : insertFuel 0 n (byte :: key) value = none := rfl

theorem insertFuel_succ_some {T : Type} (fuel : Nat) (n : RadixNode T) (byte : Byte)
    (key : List Byte) (value : T) (cs : Level T) (h : n.children = some cs) :
    insertFuel (fuel + 1) n (byte :: key) value =
      match insertFuel fuel (cs byte) key value with
      | none => none
      | some r => some (.mk n.accept_state (some (Function.update cs byte r.1)), r.2) := by
  rw [insertFuel]
  have he : n.ensure_children = n := by simp [ensure_children, h]
  rw [he, h]

theorem insertFuel_succ_none {T : Type} (fuel : Nat) (n : RadixNode T) (byte : Byte)
    (key : List Byte) (value : T) (h : n.children = none) :
    insertFuel (fuel + 1) n (byte :: key) value =
      match insertFuel fuel (RadixNode.new T) key value with
      | none => none
      | some r =>
          some (.mk n.accept_state (some (Function.update (new_children T) byte r.1)), r.2) := by
  rw [insertFuel]
  have he : n.ensure_children = .mk n.accept_state (some (new_children T)) := by
    simp [ensure_children, h]
  rw [he]
  simp only [RadixNode.mk, children, accept_state, new_children]

/-- A fuel budget of the key's byte length suffices: the step-indexed walk
then agrees with `insert`. -/
theorem insertFuel_length {T : Type} (key : List Byte) (n : RadixNode T) (value : T)
    (fuel : Nat) (h : key.length ≤ fuel) :
    insertFuel fuel n key value = some (n.insert key value) := by
  induction key generalizing n fuel with
  | nil => rw [insertFuel_nil, insert_nil]; rfl
  | cons b k ih =>
    rcases fuel with _ | f
    · exact absurd h (by simp)
    · have hf : k.length ≤ f := by simpa using h
      rcases hc : n.children with _ | cs
      · rw [insertFuel_succ_none f n b k value hc, ih (RadixNode.new T) f hf]
        rw [insert_cons, handle_next_byte_none n b k value hc]
      · rw [insertFuel_succ_some f n b k value cs hc, ih (cs b) f hf]
        rw [insert_cons, handle_next_byte_some n b k value cs hc]

/-- Any smaller fuel budget is insufficient: the walk performs one recursive
descent per byte of the key, so its depth is exactly the key's length. -/
theorem insertFuel_short {T : Type} (key : List Byte) (n : RadixNode T) (value : T)
    (fuel : Nat) (h : fuel < key.length) :
    insertFuel fuel n key value = none := by
  induction key generalizing n fuel with
  | nil => exact absurd h (by simp)
  | cons b k ih =>
    rcases fuel with _ | f
    · exact insertFuel_zero n b k value
    · have hf : f < k.length := by simpa using h
      rcases hc : n.children with _ | cs
      · rw [insertFuel_succ_none f n b k value hc, ih (RadixNode.new T) f hf]
      · rw [insertFuel_succ_some f n b k value cs hc, ih (cs b) f hf]

end RadixNode

namespace RadixTrie

/-- One `insert` call increments the counter by exactly one, whatever the
key and value are. -/
theorem len_insert {T : Type} (t : RadixTrie T) (key : List Byte) (value : T) :
    (t.insert key value).len = t.len + 1 := rfl

theorem root_insert {T : Type} (t : RadixTrie T) (key : List Byte) (value : T) :
    (t.insert key value).root = (t.root.insert key value).1 := rfl

/-- A batch of `insert` calls adds the number of calls to the counter. -/
theorem len_insertAll {T : Type} (ops : List (List Byte × T)) (t : RadixTrie T) :
    (t.insertAll ops).len = t.len + ops.length := by
  induction ops generalizing t with
  | nil => rfl
  | cons op ops ih =>
    have : (t.insertAll (op :: ops)) = (t.insert op.1 op.2).insertAll ops := rfl
    rw [this, ih, len_insert, List.length_cons]
    omega

end RadixTrie

/-- C1: for every sequence of n calls to `Trie.insert` on a newly
constructed trie, with any keys and values (including repeated or duplicate
keys), `len()` afterwards equals n: each insert call unconditionally
increments the insertion counter by exactly one, regardless of whether the
key was new or already present. -/
theorem claim_C1 (T : Type) (ops : List (List Byte × T)) :
    ((RadixTrie.new T).insertAll ops).len = ops.length ∧
    ∀ (t : RadixTrie T) (key : List Byte) (value : T),
      (t.insert key value).len = t.len + 1 := by
  refine ⟨?_, fun t key value => RadixTrie.len_insert t key value⟩
  rw [RadixTrie.len_insertAll]
  simp [RadixTrie.new, RadixTrie.len]

/-- C2: `Node.insert` with an empty remaining byte sequence replaces the
node's stored value with the new value and returns the previously stored
value; in particular, inserting the same key twice with values v1 then v2
leaves the terminus node's stored value as v2 and the second node-level
insert returns `some v1`. -/
theorem claim_C2 (T : Type) (n : RadixNode T) (value : T) (key : List Byte) (v1 v2 : T) :
    n.insert [] value = (RadixNode.mk (some value) n.children, n.accept_state) ∧
    ((n.insert key v1).1.insert key v2).1.valueAt key = some v2 ∧
    ((n.insert key v1).1.insert key v2).2 = some v1 := by
  refine ⟨RadixNode.insert_nil n value, ?_, ?_⟩
  · rw [RadixNode.valueAt_insert]
    simp
  · rw [RadixNode.snd_insert, RadixNode.valueAt_insert]
    simp

/-- C4: inserting a zero-length key stores the value at the root node's
accept state and leaves the root's children field unchanged; on a fresh
trie no children array is allocated.  The operation is total (it is a plain
function), so it cannot fail. -/
theorem claim_C4 (T : Type) (t : RadixTrie T) (value : T) :
    (t.insert [] value).root = RadixNode.mk (some value) t.root.children ∧
    (t.insert [] value).node_count = t.node_count + 1 ∧
    ((RadixTrie.new T).insert [] value).root.children = none := by
  refine ⟨?_, rfl, ?_⟩
  · rw [RadixTrie.root_insert, RadixNode.insert_nil]
  · rw [RadixTrie.root_insert, RadixNode.insert_nil]
    simp [RadixTrie.new, RadixNode.new]

/-- C8: `construct()` returns an empty trie — a root node with no stored
value and no children array, and the counter at 0 — so `len()` is 0 and
`is_empty()` is true right after construction; `is_empty()` is true exactly
when `len()` is 0. -/
theorem claim_C8 (T : Type) :
    (RadixTrie.new T).root.accept_state = none ∧
    (RadixTrie.new T).root.children = none ∧
    (RadixTrie.new T).node_count = 0 ∧
    (RadixTrie.new T).len = 0 ∧
    (RadixTrie.new T).is_empty = true ∧
    ∀ t : RadixTrie T, t.is_empty = true ↔ t.len = 0 := by
  refine ⟨rfl, rfl, rfl, rfl, rfl, fun t => ?_⟩
  simp [RadixTrie.is_empty]

/-- C3: with at least one byte remaining, `Node.insert` (via
`handle_next_byte`) first materializes the children array if absent — a
fresh array with one default-initialized node (no value, no children) in
each of its 256 byte-indexed slots — then recurses into the child at index
`byte` with the remaining bytes; when the array is already present it is
reused as is (the result is built from the very same array, updated only at
slot `byte`). -/
theorem claim_C3 (T : Type) (n : RadixNode T) (byte : Byte) (key : List Byte) (value : T) :
    (∀ i : Byte, RadixNode.new_children T i = RadixNode.new T) ∧
    ((RadixNode.new T).accept_state = none ∧ (RadixNode.new T).children = none) ∧
    (n.children = none →
      n.handle_next_byte byte key value =
        (RadixNode.mk n.accept_state
            (some (Function.update (RadixNode.new_children T) byte
              ((RadixNode.new T).insert key value).1)),
          ((RadixNode.new T).insert key value).2)) ∧
    (∀ cs, n.children = some cs →
      n.handle_next_byte byte key value =
        (RadixNode.mk n.accept_state
            (some (Function.update cs byte ((cs byte).insert key value).1)),
          ((cs byte).insert key value).2)) := by
  refine ⟨fun _ => rfl, ⟨rfl, rfl⟩, ?_, ?_⟩
  · exact fun h => RadixNode.handle_next_byte_none n byte key value h
  · exact fun cs h => RadixNode.handle_next_byte_some n byte key value cs h

theorem claim_C3_witness :
    ((RadixNode.new Nat).children = none) ∧
    (RadixNode.new Nat).handle_next_byte 3 [] 7 =
      (RadixNode.mk none
          (some (Function.update (RadixNode.new_children Nat) 3
            ((RadixNode.new Nat).insert [] 7).1)),
        ((RadixNode.new Nat).insert [] 7).2) :=
  ⟨rfl, (claim_C3 Nat (RadixNode.new Nat) 3 [] 7).2.2.1 rfl⟩

/-- C9: the `None` arm of the match in `handle_next_byte` (the fallback
that builds a fresh children array, inserts into it, and stores it) is
unreachable: the preceding conditional (`ensure_children`) guarantees the
children field is `Some`, so for every input the result is the one produced
by the `Some` arm. -/
theorem claim_C9 (T : Type) (n : RadixNode T) (byte : Byte) (key : List Byte) (value : T) :
    ∃ cs, n.ensure_children.children = some cs ∧
      n.handle_next_byte byte key value =
        (RadixNode.mk n.ensure_children.accept_state
            (some (Function.update cs byte ((cs byte).insert key value).1)),
          ((cs byte).insert key value).2) := by
  rcases hc : n.children with _ | cs
  · refine ⟨RadixNode.new_children T, ?_, ?_⟩
    · simp [RadixNode.ensure_children, hc]
    · have he : n.ensure_children =
          RadixNode.mk n.accept_state (some (RadixNode.new_children T)) := by
        simp [RadixNode.ensure_children, hc]
      rw [RadixNode.handle_next_byte_none n byte key value hc, he]
      simp [RadixNode.new_children]
  · refine ⟨cs, ?_, ?_⟩
    · have he : n.ensure_children = n := by simp [RadixNode.ensure_children, hc]
      rw [he, hc]
    · have he : n.ensure_children = n := by simp [RadixNode.ensure_children, hc]
      rw [RadixNode.handle_next_byte_some n byte key value cs hc, he]

/-- C10: `Node.insert` terminates for every finite key: the step-indexed
variant `insertFuel`, which spends one unit of fuel per recursive descent,
completes with exactly `key.length` units and agrees with `insert` there,
while any smaller budget runs out — the recursion depth equals the number
of remaining bytes. -/
theorem claim_C10 (T : Type) (key : List Byte) (n : RadixNode T) (value : T) :
    RadixNode.insertFuel key.length n key value = some (n.insert key value) ∧
    ∀ fuel, fuel < key.length → RadixNode.insertFuel fuel n key value = none :=
  ⟨RadixNode.insertFuel_length key n value key.length (Nat.le_refl _),
    fun fuel h => RadixNode.insertFuel_short key n value fuel h⟩

theorem claim_C10_witness :
    RadixNode.insertFuel 2 (RadixNode.new Nat) [3, 5] 7 =
      some ((RadixNode.new Nat).insert [3, 5] 7) ∧
    RadixNode.insertFuel 1 (RadixNode.new Nat) [3, 5] 7 = none :=
  ⟨(claim_C10 Nat [3, 5] (RadixNode.new Nat) 7).1,
    (claim_C10 Nat [3, 5] (RadixNode.new Nat) 7).2 1 (by decide)⟩

/-- C5: re-inserting a key that is already present allocates nothing and
mutates in place.  Allocation-freedom and in-place mutation are rendered
observationally: the terminus node keeps its children field literally
unchanged and only its stored value becomes the new value, while every
interior node of the key's path keeps its stored value, keeps its children
array present (the allocating branch is not taken), and keeps every slot of
that array other than the key's next byte. -/
theorem claim_C5 (T : Type) (key : List Byte) (n : RadixNode T) (value w : T)
    (h : n.valueAt key = some w) :
    (∃ m, n.subnodeAt key = some m ∧
      ((n.insert key value).1).subnodeAt key = some (RadixNode.mk (some value) m.children)) ∧
    (∀ p c rest, key = p ++ c :: rest →
      ∃ m cs, n.subnodeAt p = some m ∧ m.children = some cs ∧
        ((n.insert key value).1).subnodeAt p =
          some (RadixNode.mk m.accept_state
            (some (Function.update cs c ((cs c).insert rest value).1))) ∧
        ∀ d, d ≠ c → Function.update cs c ((cs c).insert rest value).1 d = cs d) := by
  have hsub : ∃ m, n.subnodeAt key = some m := by
    rcases ho : n.subnodeAt key with _ | m
    · rw [RadixNode.valueAt, ho] at h
      simp at h
    · exact ⟨m, rfl⟩
  obtain ⟨m, hm⟩ := hsub
  refine ⟨⟨m, hm, RadixNode.subnodeAt_insert_self key n value m hm⟩, ?_⟩
  rintro p c rest rfl
  obtain ⟨m2, cs2, hm2, hcs2⟩ := RadixNode.subnode_children_of_valueAt p c rest n w h
  exact ⟨m2, cs2, hm2, hcs2,
    RadixNode.subnodeAt_insert_path p c rest n value m2 cs2 hm2 hcs2,
    fun d hd => Function.update_noteq hd _ _⟩

theorem claim_C5_witness :
    sampleNode.valueAt [2] = some 3 ∧
    ((∃ m, sampleNode.subnodeAt [2] = some m ∧
        ((sampleNode.insert [2] 5).1).subnodeAt [2] = some (RadixNode.mk (some 5) m.children)) ∧
      (∀ p c rest, ([2] : List Byte) = p ++ c :: rest →
        ∃ m cs, sampleNode.subnodeAt p = some m ∧ m.children = some cs ∧
          ((sampleNode.insert [2] 5).1).subnodeAt p =
            some (RadixNode.mk m.accept_state
              (some (Function.update cs c ((cs c).insert rest 5).1))) ∧
          ∀ d, d ≠ c → Function.update cs c ((cs c).insert rest 5).1 d = cs d)) := by
  have h : sampleNode.valueAt [2] = some 3 := by
    rw [RadixNode.valueAt_cons_some sampleNode 2 []
      (Function.update (RadixNode.new_children Nat) 2 (RadixNode.mk (some 3) none)) rfl]
    rw [Function.update_same]
    rfl
  exact ⟨h, claim_C5 Nat [2] sampleNode 5 3 h⟩

/-- C6 counterexample: on a fresh trie (root without a children array),
inserting the key `[0]` materializes the root's 256-slot children array,
so the node reachable through first byte `1` — absent before the call — is
present (as a default node) afterwards: the claim's "presence/absence of
every node reachable only through a different first byte is unchanged"
fails at this input. -/
theorem claim_C6_counterexample :
    (RadixTrie.new Nat).root.subnodeAt [1] = none ∧
    ((RadixTrie.new Nat).insert [0] 7).root.subnodeAt [1] = some (RadixNode.new Nat) := by
  constructor
  · rfl
  · rw [RadixTrie.root_insert]
    rw [show (RadixTrie.new Nat).root = RadixNode.new Nat from rfl]
    rw [RadixNode.insert_cons, RadixNode.handle_next_byte_none (RadixNode.new Nat) 0 [] 7 rfl]
    rw [RadixNode.subnodeAt_cons_some _ 1 []
      (Function.update (RadixNode.new_children Nat) 0 ((RadixNode.new Nat).insert [] 7).1)
      (by simp)]
    rw [Function.update_noteq (by decide)]
    rfl

/-- C6 as amended: inserting a key with first byte `b` leaves the value
observed along every path starting with a different first byte `c`
unchanged; when the root's children array already exists, slot `c` of it is
literally unmodified; when the insertion first materializes that array,
slot `c` becomes a freshly created default node (no value, no children) —
so no stored value ever appears or changes under another first byte, but
such nodes' presence can change from absent to (empty) present. -/
theorem claim_C6_amended (T : Type) (n : RadixNode T) (b c : Byte) (rest q : List Byte)
    (value : T) (hcb : c ≠ b) :
    ((n.insert (b :: rest) value).1).valueAt (c :: q) = n.valueAt (c :: q) ∧
    (∀ cs, n.children = some cs →
      ∃ cs', ((n.insert (b :: rest) value).1).children = some cs' ∧ cs' c = cs c) ∧
    (n.children = none →
      ∃ cs', ((n.insert (b :: rest) value).1).children = some cs' ∧
        cs' c = RadixNode.new T) := by
  refine ⟨?_, ?_, ?_⟩
  · rw [RadixNode.valueAt_insert]
    simp [hcb]
  · intro cs hc
    rw [RadixNode.insert_cons, RadixNode.handle_next_byte_some n b rest value cs hc]
    exact ⟨Function.update cs b ((cs b).insert rest value).1, by simp,
      Function.update_noteq hcb _ _⟩
  · intro hc
    rw [RadixNode.insert_cons, RadixNode.handle_next_byte_none n b rest value hc]
    exact ⟨Function.update (RadixNode.new_children T) b ((RadixNode.new T).insert rest value).1,
      by simp, Function.update_noteq hcb _ _⟩

theorem claim_C6_amended_witness :
    ((1 : Byte) ≠ (0 : Byte)) ∧
    (((RadixNode.new Nat).insert [0] 7).1).valueAt [1] = (RadixNode.new Nat).valueAt [1] ∧
    (∀ cs, (RadixNode.new Nat).children = some cs →
      ∃ cs', (((RadixNode.new Nat).insert [0] 7).1).children = some cs' ∧ cs' 1 = cs 1) ∧
    ((RadixNode.new Nat).children = none →
      ∃ cs', (((RadixNode.new Nat).insert [0] 7).1).children = some cs' ∧
        cs' 1 = RadixNode.new Nat) :=
  ⟨by decide, claim_C6_amended Nat (RadixNode.new Nat) 0 1 [] [] 7 (by decide)⟩

/-- C7: after inserting two keys `p ++ a :: s1` then `p ++ c :: s2` that
share the non-empty prefix `p` and diverge at bytes `a ≠ c` into a fresh
trie's root: (i) the first insert leaves a node with a materialized
children array at every proper prefix of `p` and at `p` itself; (ii) the
second insert reuses those nodes — they are still present with children
arrays and the values stored along the prefix are unchanged; (iii) the node
at `p` holds one children array under which both terminus values sit, at
the two distinct slots `a` and `c`. -/
theorem claim_C7 (T : Type) (p s1 s2 : List Byte) (a c : Byte) (v1 v2 : T)
    (hp : p ≠ []) (hac : a ≠ c) :
    (∀ q d q2, p = q ++ d :: q2 →
      ∃ m, (((RadixNode.new T).insert (p ++ a :: s1) v1).1).subnodeAt q = some m ∧
        m.children.isSome = true) ∧
    (∃ m, (((RadixNode.new T).insert (p ++ a :: s1) v1).1).subnodeAt p = some m ∧
      m.children.isSome = true) ∧
    (∀ q d q2, p = q ++ d :: q2 →
      ((((RadixNode.new T).insert (p ++ a :: s1) v1).1.insert (p ++ c :: s2) v2).1).valueAt q =
        (((RadixNode.new T).insert (p ++ a :: s1) v1).1).valueAt q ∧
      ∃ m, ((((RadixNode.new T).insert (p ++ a :: s1) v1).1.insert
          (p ++ c :: s2) v2).1).subnodeAt q = some m ∧ m.children.isSome = true) ∧
    (∃ m cs, ((((RadixNode.new T).insert (p ++ a :: s1) v1).1.insert
          (p ++ c :: s2) v2).1).subnodeAt p = some m ∧
      m.children = some cs ∧
      (cs a).valueAt s1 = some v1 ∧ (cs c).valueAt s2 = some v2) := by
  refine ⟨?_, ?_, ?_, ?_⟩
  · rintro q d q2 rfl
    have hkey : (q ++ d :: q2) ++ a :: s1 = q ++ d :: (q2 ++ a :: s1) := by simp
    rw [hkey]
    exact RadixNode.subnodeAt_insert_children_isSome q d (q2 ++ a :: s1) (RadixNode.new T) v1
  · exact RadixNode.subnodeAt_insert_children_isSome p a s1 (RadixNode.new T) v1
  · rintro q d q2 rfl
    constructor
    · have hne : q ≠ (q ++ d :: q2) ++ c :: s2 := by
        intro he
        have hlen := congrArg List.length he
        simp at hlen
      rw [RadixNode.valueAt_insert, if_neg hne]
    · have hkey2 : (q ++ d :: q2) ++ c :: s2 = q ++ d :: (q2 ++ c :: s2) := by simp
      rw [hkey2]
      exact RadixNode.subnodeAt_insert_children_isSome q d (q2 ++ c :: s2) _ v2
  · obtain ⟨m1, hm1, hcs1some⟩ :=
      RadixNode.subnodeAt_insert_children_isSome p a s1 (RadixNode.new T) v1
    obtain ⟨cs1, hcs1⟩ := Option.isSome_iff_exists.mp hcs1some
    have hv1 : (((RadixNode.new T).insert (p ++ a :: s1) v1).1).valueAt (p ++ a :: s1) =
        some v1 := by
      rw [RadixNode.valueAt_insert]
      simp
    have hva : (cs1 a).valueAt s1 = some v1 := by
      rw [RadixNode.valueAt_append p (a :: s1) _ m1 hm1,
        RadixNode.valueAt_cons_some m1 a s1 cs1 hcs1] at hv1
      exact hv1
    have hpath := RadixNode.subnodeAt_insert_path p c s2 _ v2 m1 cs1 hm1 hcs1
    refine ⟨RadixNode.mk m1.accept_state
        (some (Function.update cs1 c ((cs1 c).insert s2 v2).1)),
      Function.update cs1 c ((cs1 c).insert s2 v2).1, hpath, by simp, ?_, ?_⟩
    · rw [Function.update_noteq hac]
      exact hva
    · rw [Function.update_same, RadixNode.valueAt_insert]
      simp

theorem claim_C7_witness :
    (([5] : List Byte) ≠ [] ∧ (0 : Byte) ≠ 1) ∧
    ((∀ q d q2, ([5] : List Byte) = q ++ d :: q2 →
      ∃ m, (((RadixNode.new Nat).insert [5, 0] 10).1).subnodeAt q = some m ∧
        m.children.isSome = true) ∧
    (∃ m, (((RadixNode.new Nat).insert [5, 0] 10).1).subnodeAt [5] = some m ∧
      m.children.isSome = true) ∧
    (∀ q d q2, ([5] : List Byte) = q ++ d :: q2 →
      ((((RadixNode.new Nat).insert [5, 0] 10).1.insert [5, 1] 20).1).valueAt q =
        (((RadixNode.new Nat).insert [5, 0] 10).1).valueAt q ∧
      ∃ m, ((((RadixNode.new Nat).insert [5, 0] 10).1.insert
          [5, 1] 20).1).subnodeAt q = some m ∧ m.children.isSome = true) ∧
    (∃ m cs, ((((RadixNode.new Nat).insert [5, 0] 10).1.insert
          [5, 1] 20).1).subnodeAt [5] = some m ∧
      m.children = some cs ∧
      (cs 0).valueAt [] = some 10 ∧ (cs 1).valueAt [] = some 20)) :=
  ⟨⟨by decide, by decide⟩, claim_C7 Nat [5] [] [] 0 1 10 20 (by decide) (by decide)⟩
